import Mathlib

/-!
Verification of the grammar-fixer core (Ollama/Gemma3 reconciliation pipeline).

The JavaScript source is shallowly embedded here:
* JS strings are `List Char`; `String.prototype.indexOf` becomes a fueled
  linear search (`searchAux` / `jsIndexOf`) with the same clamping behaviour.
* `findSubstringPosition`, `processCorrections`, `parseOllamaResponse`,
  `applyCorrections`, `isValidCorrection` and `fixGrammar` are translated
  from `src/grammarFixer.js` and `index.js`.
* `JSON.parse` is a JS builtin, not repository code, so it is abstracted as
  a parameter `jsonParse : List Char → Option Json`; likewise the network
  call to Ollama is abstracted as `llm : List Char → Except (List Char) (List Char)`.
* The dynamic (duck-typed) validator `isValidCorrection` is modelled over a
  small JS-value layer (`JsPrim`, `JsCorrectionObj`) so that missing fields
  and wrongly-typed fields are representable.
-/

namespace GrammarFixer

/-- A half-open character span `[start, stop)`.  The JS field `end` is a Lean
keyword, so it is called `stop` here. -/
structure Span where
  start : Nat
  stop : Nat
deriving DecidableEq, Repr

/-- An LLM-emitted raw suggestion: `{oldText, newText, explanation?}`.
`explanation := some []` models a present-but-empty explanation string. -/
structure RawSuggestion where
  oldText : List Char
  newText : List Char
  explanation : Option (List Char)
deriving DecidableEq, Repr

/-- A fully resolved correction: `{location, oldText, newText, explanation?}`. -/
structure Correction where
  location : Span
  oldText : List Char
  newText : List Char
  explanation : Option (List Char)
deriving DecidableEq, Repr

/-- `occursAtB text sub i` holds when `sub` occurs in `text` at index `i`
(the occurrence fits inside `text` whenever `i ≤ text.length` or `sub ≠ []`). -/
def occursAtB (text sub : List Char) (i : Nat) : Bool :=
  decide ((text.drop i).take sub.length = sub)

/-- Fueled linear scan underlying `String.prototype.indexOf`: tries candidate
positions `i, i+1, ...` (at most `fuel` of them) and returns the first
occurrence of `sub`. -/
def searchAux (text sub : List Char) : Nat → Nat → Option Nat
  | _, 0 => none
  | i, fuel + 1 =>
    if occursAtB text sub i then some i else searchAux text sub (i + 1) fuel

/-- JS `text.indexOf(sub, start)`: the start index is clamped to
`[0, text.length]` and candidate positions up to `text.length` are scanned. -/
def jsIndexOf (text sub : List Char) (start : Nat) : Option Nat :=
  let k := min start text.length
  searchAux text sub k (text.length + 1 - k)

/-- `findSubstringPosition` from `src/grammarFixer.js` (lines 195-205):
first occurrence of `substring` at or after `startIndex`, as a `Span` with
`stop = start + substring.length`; `none` when `indexOf` returns `-1`. -/
def findSubstringPosition (text substring : List Char) (startIndex : Nat) : Option Span :=
  match jsIndexOf text substring startIndex with
  | none => none
  | some s => some ⟨s, s + substring.length⟩

/-- A primitive JS value, enough to express the duck-typed checks of
`isValidCorrection` (numbers, strings, booleans). -/
inductive JsPrim where
  | num : Int → JsPrim
  | str : List Char → JsPrim
  | boolV : Bool → JsPrim
deriving DecidableEq, Repr

/-- A JS `location` object whose `start` / `end` fields may be missing or
wrongly typed (`none` models a missing field). -/
structure JsLocationObj where
  start : Option JsPrim
  stop : Option JsPrim
deriving DecidableEq, Repr

/-- A candidate correction object as seen by the duck-typed validator. -/
structure JsCorrectionObj where
  location : Option JsLocationObj
  oldText : Option JsPrim
  newText : Option JsPrim
deriving DecidableEq, Repr

/-- `isValidCorrection` from `src/grammarFixer.js` (lines 214-232): rejects a
non-object, a missing/non-object `location`, non-number `start` / `end`, and
non-string `oldText` / `newText`; nothing else is checked. -/
def isValidCorrection : Option JsCorrectionObj → Bool
  | none => false
  | some c =>
    match c.location with
    | none => false
    | some loc =>
      (match loc.start with | some (JsPrim.num _) => true | _ => false) &&
      (match loc.stop with | some (JsPrim.num _) => true | _ => false) &&
      (match c.oldText with | some (JsPrim.str _) => true | _ => false) &&
      (match c.newText with | some (JsPrim.str _) => true | _ => false)

/-- View of a well-typed `Correction` as the JS object handed to
`isValidCorrection` inside `processCorrections`. -/
def toJsCandidate (c : Correction) : Option JsCorrectionObj :=
  some
    { location := some
        { start := some (JsPrim.num (c.location.start : Int))
          stop := some (JsPrim.num (c.location.stop : Int)) }
      oldText := some (JsPrim.str c.oldText)
      newText := some (JsPrim.str c.newText) }

/-- JS truthiness filter on the optional `explanation` string: the source
guard `if (correction.explanation)` keeps only a present, non-empty string. -/
def carriedExplanation : Option (List Char) → Option (List Char)
  | some e => if e.isEmpty then none else some e
  | none => none

/-- The correction object literal built inside `processCorrections`
(lines 158-170): resolved span, the suggestion texts, and the explanation
attached only when JS-truthy. -/
def mkFormattedCorrection (pos : Span) (s : RawSuggestion) : Correction :=
  { location := pos
    oldText := s.oldText
    newText := s.newText
    explanation := carriedExplanation s.explanation }

/-- Loop of `processCorrections` (lines 149-184) with the moving
`searchStartIndex` made explicit: resolve each suggestion from the cursor,
skip it silently on failure, validate, append and advance the cursor to the
resolved span's end on success. -/
def processCorrectionsAux (originalText : List Char) :
    List RawSuggestion → Nat → List Correction
  | [], _ => []
  | s :: rest, cursor =>
    match findSubstringPosition originalText s.oldText cursor with
    | some pos =>
      let fc := mkFormattedCorrection pos s
      if isValidCorrection (toJsCandidate fc) then
        fc :: processCorrectionsAux originalText rest pos.stop
      else
        processCorrectionsAux originalText rest cursor
    | none => processCorrectionsAux originalText rest cursor

/-- `processCorrections` from `src/grammarFixer.js`: the reconciler, with the
search cursor initialised to `0`. -/
def processCorrections (originalText : List Char) (raw : List RawSuggestion) :
    List Correction :=
  processCorrectionsAux originalText raw 0

/-- JS `text.substring(a, b)`: both indices clamped to `[0, length]` and
swapped when out of order. -/
def jsSubstring (text : List Char) (a b : Nat) : List Char :=
  let a' := min a text.length
  let b' := min b text.length
  (text.drop (min a' b')).take (max a' b' - min a' b')

/-- One splice step of `applyCorrections` (index.js lines 65-69):
`text.substring(0, start) + newText + text.substring(stop)`. -/
def splice (text : List Char) (start stop : Nat) (newText : List Char) : List Char :=
  text.take start ++ newText ++ text.drop stop

/-- The copy-and-sort step `[...corrections].sort((a, b) => b.location.start -
a.location.start)` of index.js line 61, modelled by the stable insertion sort
(ES2019 requires `Array.prototype.sort` to be stable). -/
def sortByStartDesc (cs : List Correction) : List Correction :=
  List.insertionSort (fun a b => b.location.start ≤ a.location.start) cs

/-- `applyCorrections` from index.js (lines 56-73): identity on the empty
batch, otherwise splice every correction in descending order of `start`. -/
def applyCorrections (text : List Char) (corrections : List Correction) : List Char :=
  if corrections.length = 0 then text
  else
    (sortByStartDesc corrections).foldl
      (fun acc c => splice acc c.location.start c.location.stop c.newText) text

/-- A parsed JSON value, the possible results of the `JSON.parse` builtin. -/
inductive Json where
  | nullV : Json
  | boolV : Bool → Json
  | num : Int → Json
  | str : List Char → Json
  | arr : List Json → Json
  | obj : List (List Char × Json) → Json

/-- JS property access `j.key` on a parsed JSON value: a field of an object,
`undefined` (here `none`) otherwise. -/
def getField (j : Json) (key : List Char) : Option Json :=
  match j with
  | Json.obj fields => (fields.find? (fun p => p.fst == key)).map Prod.snd
  | _ => none

/-- JS property access on `null` throws a `TypeError`; inside the `try` block
of `parseOllamaResponse` that aborts the whole parse.  This flags the values
whose property access throws. -/
def isNullJson : Json → Bool
  | Json.nullV => true
  | _ => false

/-- JS truthiness of a possibly-`undefined` JSON value. -/
def jsTruthy : Option Json → Bool
  | none => false
  | some Json.nullV => false
  | some (Json.boolV b) => b
  | some (Json.num n) => decide (n ≠ 0)
  | some (Json.str s) => !s.isEmpty
  | some (Json.arr _) => true
  | some (Json.obj _) => true

/-- JS `typeof v === 'string'` on a possibly-`undefined` JSON value. -/
def isStringVal : Option Json → Bool
  | some (Json.str _) => true
  | _ => false

def oldTextKey : List Char := "oldText".toList

def newTextKey : List Char := "newText".toList

def explanationKey : List Char := "explanation".toList

/-- The array filter of `parseOllamaResponse` (lines 129-134):
`c.oldText && c.newText && typeof c.oldText === 'string' && typeof c.newText
=== 'string'`. -/
def keepSuggestion (j : Json) : Bool :=
  jsTruthy (getField j oldTextKey) && jsTruthy (getField j newTextKey) &&
  isStringVal (getField j oldTextKey) && isStringVal (getField j newTextKey)

/-- Reads a kept array element as a typed `RawSuggestion`; the `explanation`
field is retained when it is a string (the data model's type for it). -/
def toRawSuggestion (j : Json) : Option RawSuggestion :=
  match getField j oldTextKey, getField j newTextKey with
  | some (Json.str o), some (Json.str n) =>
    some
      { oldText := o
        newText := n
        explanation :=
          match getField j explanationKey with
          | some (Json.str e) => some e
          | _ => none }
  | _, _ => none

/-- Index of the first occurrence of a character, if any. -/
def firstIdxOf (c : Char) : List Char → Option Nat
  | [] => none
  | ch :: rest => if ch = c then some 0 else (firstIdxOf c rest).map (· + 1)

/-- Index of the last occurrence of a character, if any. -/
def lastIdxOf (c : Char) : List Char → Option Nat
  | [] => none
  | ch :: rest =>
    match lastIdxOf c rest with
    | some k => some (k + 1)
    | none => if ch = c then some 0 else none

/-- The regex step `responseText.match(/\[[\s\S]*\]/)` of line 115: the
leftmost match of the greedy pattern runs from the first literal opening
bracket to the last closing bracket after it, inclusive. -/
def extractJsonRegion (text : List Char) : Option (List Char) :=
  match firstIdxOf '[' text, lastIdxOf ']' text with
  | some i, some j =>
    if i < j then some ((text.drop i).take (j - i + 1)) else none
  | _, _ => none

/-- `parseOllamaResponse` from `src/grammarFixer.js` (lines 112-139), with the
`JSON.parse` builtin abstracted as `jsonParse` (returning `none` when it
throws): no bracketed region, a parse failure, a non-array result, or a
`null` array element (property access throws inside the `try`) all collapse
to the empty suggestion list; otherwise the array is filtered to the
well-typed suggestions. -/
def parseOllamaResponse (jsonParse : List Char → Option Json)
    (responseText : List Char) : List RawSuggestion :=
  match extractJsonRegion responseText with
  | none => []
  | some region =>
    match jsonParse region with
    | none => []
    | some (Json.arr items) =>
      if items.any isNullJson then []
      else (items.filter keepSuggestion).filterMap toRawSuggestion
    | some _ => []

/-- The two fatal error kinds of the pipeline. -/
inductive GrammarError where
  | invalidInput
  | upstreamFailure (msg : List Char)
deriving DecidableEq, Repr

/-- The guard of `fixGrammar` (line 25): `!text || typeof text !== 'string'`.
The primary text input is a JS value (`none` models `undefined`/`null`/other
non-primitive inputs); the guard passes exactly for non-empty strings. -/
def invalidTextInput : Option JsPrim → Bool
  | some (JsPrim.str s) => s.isEmpty
  | _ => true

/-- `analyzeTextWithOllama` (lines 56-102) with the network call abstracted:
an LLM failure is surfaced as `upstreamFailure`, a response is fed through
`parseOllamaResponse`. -/
def analyzeTextWithOllama (llm : List Char → Except (List Char) (List Char))
    (jsonParse : List Char → Option Json) (text : List Char) :
    Except GrammarError (List RawSuggestion) :=
  match llm text with
  | Except.error e => Except.error (GrammarError.upstreamFailure e)
  | Except.ok response => Except.ok (parseOllamaResponse jsonParse response)

/-- `fixGrammar` from `src/grammarFixer.js` (lines 24-46): reject an empty or
non-string input before anything else, then analyze and reconcile.  The
`catch` block rethrows the error unchanged, so it is omitted. -/
def fixGrammar (llm : List Char → Except (List Char) (List Char))
    (jsonParse : List Char → Option Json) (textInput : Option JsPrim) :
    Except GrammarError (List Correction) :=
  match textInput with
  | some (JsPrim.str s) =>
    if s.isEmpty then Except.error GrammarError.invalidInput
    else
      match analyzeTextWithOllama llm jsonParse s with
      | Except.error e => Except.error e
      | Except.ok raw => Except.ok (processCorrections s raw)
  | _ => Except.error GrammarError.invalidInput

/-- A batch of corrections that is valid for `text` and listed left to right:
each span satisfies the `Span` invariant `start < stop ≤ length`, starts at
or after the running lower bound `p`, and the next correction starts at or
after this one's `stop` (non-overlapping, ascending). -/
def validChainB (text : List Char) : Nat → List Correction → Bool
  | _, [] => true
  | p, c :: rest =>
    decide (p ≤ c.location.start) && decide (c.location.start < c.location.stop) &&
    decide (c.location.stop ≤ text.length) && validChainB text c.location.stop rest

/-- Modelled from the spec's words (§4.3): the intended meaning of applying a
left-to-right batch — every span `[start, stop)` of the original text is
replaced by its `newText`, the rest of the text is kept.  `p` is the absolute
position in `text` up to which output has already been emitted. -/
def spliceAllSpec (text : List Char) : Nat → List Correction → List Char
  | p, [] => text.drop p
  | p, c :: rest =>
    ((text.take c.location.start).drop p) ++ c.newText ++
      spliceAllSpec text c.location.stop rest

end GrammarFixer

namespace GrammarFixer

theorem occursAtB_true_iff {text sub : List Char} {i : Nat} :
    occursAtB text sub i = true ↔ (text.drop i).take sub.length = sub := by
  simp [occursAtB]

theorem occursAtB_of_gt {text sub : List Char} {i : Nat} (hlen : text.length < i)
    (hsub : sub ≠ []) : occursAtB text sub i = false := by
  simp only [occursAtB, decide_eq_false_iff_not]
  intro h
  have hnil : text.drop i = [] := List.drop_eq_nil_of_le (Nat.le_of_lt hlen)
  rw [hnil, List.take_nil] at h
  exact hsub h.symm

theorem occursAtB_add_le {text sub : List Char} {i : Nat}
    (hi : i ≤ text.length) (h : occursAtB text sub i = true) :
    i + sub.length ≤ text.length := by
  rw [occursAtB_true_iff] at h
  have hlen := congrArg List.length h
  rw [List.length_take, List.length_drop] at hlen
  omega

theorem searchAux_some {text sub : List Char} :
    ∀ {fuel i s : Nat}, searchAux text sub i fuel = some s →
      i ≤ s ∧ s < i + fuel ∧ occursAtB text sub s = true ∧
      ∀ x, i ≤ x → x < s → occursAtB text sub x = false := by
  intro fuel
  induction fuel with
  | zero => intro i s h; simp [searchAux] at h
  | succ n ih =>
    intro i s h
    by_cases hocc : occursAtB text sub i = true
    · rw [searchAux, if_pos hocc] at h
      obtain rfl : i = s := Option.some.inj h
      exact ⟨Nat.le_refl i, by omega, hocc, fun x h1 h2 => absurd h1 (by omega)⟩
    · rw [searchAux, if_neg hocc] at h
      obtain ⟨h1, h2, h3, h4⟩ := ih h
      refine ⟨by omega, by omega, h3, fun x hx1 hx2 => ?_⟩
      rcases Nat.eq_or_lt_of_le hx1 with hx | hx
      · subst hx; exact Bool.eq_false_iff.mpr hocc
      · exact h4 x hx hx2

theorem searchAux_none {text sub : List Char} :
    ∀ {fuel i : Nat}, searchAux text sub i fuel = none →
      ∀ x, i ≤ x → x < i + fuel → occursAtB text sub x = false := by
  intro fuel
  induction fuel with
  | zero => intro i _ x _ h2; omega
  | succ n ih =>
    intro i h x hx1 hx2
    by_cases hocc : occursAtB text sub i = true
    · rw [searchAux, if_pos hocc] at h; exact absurd h (by simp)
    · rw [searchAux, if_neg hocc] at h
      rcases Nat.eq_or_lt_of_le hx1 with hx | hx
      · subst hx; exact Bool.eq_false_iff.mpr hocc
      · exact ih h x hx (by omega)

theorem jsIndexOf_some {text sub : List Char} {start s : Nat}
    (hstart : start ≤ text.length) (h : jsIndexOf text sub start = some s) :
    start ≤ s ∧ s ≤ text.length ∧ occursAtB text sub s = true ∧
    ∀ x, start ≤ x → x < s → occursAtB text sub x = false := by
  simp only [jsIndexOf, Nat.min_eq_left hstart] at h
  obtain ⟨h1, h2, h3, h4⟩ := searchAux_some h
  exact ⟨h1, by omega, h3, h4⟩

theorem jsIndexOf_none {text sub : List Char} {start : Nat}
    (hstart : start ≤ text.length) (h : jsIndexOf text sub start = none) :
    ∀ x, start ≤ x → occursAtB text sub x = false := by
  have hsub : sub ≠ [] := by
    intro hempty
    subst hempty
    simp only [jsIndexOf, Nat.min_eq_left hstart] at h
    have hfuel : text.length + 1 - start = (text.length - start) + 1 := by omega
    rw [hfuel] at h
    simp [searchAux, occursAtB] at h
  intro x hx
  by_cases hxlen : x ≤ text.length
  · simp only [jsIndexOf, Nat.min_eq_left hstart] at h
    exact searchAux_none h x hx (by omega)
  · exact occursAtB_of_gt (by omega) hsub

theorem findSubstringPosition_empty {text : List Char} {i : Nat}
    (hi : i ≤ text.length) : findSubstringPosition text [] i = some ⟨i, i⟩ := by
  simp only [findSubstringPosition, jsIndexOf, Nat.min_eq_left hi]
  have hfuel : text.length + 1 - i = (text.length - i) + 1 := by omega
  rw [hfuel]
  simp [searchAux, occursAtB]

theorem findSubstringPosition_some {text sub : List Char} {i : Nat} {sp : Span}
    (hi : i ≤ text.length) (h : findSubstringPosition text sub i = some sp) :
    i ≤ sp.start ∧ sp.stop = sp.start + sub.length ∧ sp.stop ≤ text.length ∧
    occursAtB text sub sp.start = true ∧
    ∀ x, i ≤ x → x < sp.start → occursAtB text sub x = false := by
  unfold findSubstringPosition at h
  cases hidx : jsIndexOf text sub i with
  | none => rw [hidx] at h; exact absurd h (by simp)
  | some s =>
    rw [hidx] at h
    obtain rfl : (⟨s, s + sub.length⟩ : Span) = sp := Option.some.inj h
    obtain ⟨h1, h2, h3, h4⟩ := jsIndexOf_some hi hidx
    exact ⟨h1, rfl, occursAtB_add_le h2 h3, h3, h4⟩

theorem findSubstringPosition_none {text sub : List Char} {i : Nat}
    (hi : i ≤ text.length) (h : findSubstringPosition text sub i = none) :
    ∀ x, i ≤ x → occursAtB text sub x = false := by
  unfold findSubstringPosition at h
  cases hidx : jsIndexOf text sub i with
  | none => exact jsIndexOf_none hi hidx
  | some s => rw [hidx] at h; exact absurd h (by simp)

theorem isValidCorrection_toJsCandidate (c : Correction) :
    isValidCorrection (toJsCandidate c) = true := rfl

theorem processCorrectionsAux_nil (text : List Char) (cursor : Nat) :
    processCorrectionsAux text [] cursor = [] := rfl

theorem processCorrectionsAux_cons_some {text : List Char} {s : RawSuggestion}
    {rest : List RawSuggestion} {cursor : Nat} {pos : Span}
    (hpos : findSubstringPosition text s.oldText cursor = some pos) :
    processCorrectionsAux text (s :: rest) cursor =
      mkFormattedCorrection pos s :: processCorrectionsAux text rest pos.stop := by
  simp only [processCorrectionsAux, hpos]
  rw [if_pos (isValidCorrection_toJsCandidate _)]

theorem processCorrectionsAux_cons_none {text : List Char} {s : RawSuggestion}
    {rest : List RawSuggestion} {cursor : Nat}
    (hpos : findSubstringPosition text s.oldText cursor = none) :
    processCorrectionsAux text (s :: rest) cursor =
      processCorrectionsAux text rest cursor := by
  simp only [processCorrectionsAux, hpos]

/-- Wherever the cursor stands (within the text), every correction the loop
still produces starts at or after the cursor, spans exactly its `oldText`,
stays inside the text, and marks a real occurrence of its `oldText`. -/
theorem processCorrectionsAux_invariant (text : List Char) :
    ∀ (raw : List RawSuggestion) (cursor : Nat), cursor ≤ text.length →
      ∀ c ∈ processCorrectionsAux text raw cursor,
        cursor ≤ c.location.start ∧
        c.location.stop = c.location.start + c.oldText.length ∧
        c.location.stop ≤ text.length ∧
        occursAtB text c.oldText c.location.start = true := by
  intro raw
  induction raw with
  | nil => intro cursor _ c hc; rw [processCorrectionsAux_nil] at hc; cases hc
  | cons s rest ih =>
    intro cursor hcur c hc
    cases hpos : findSubstringPosition text s.oldText cursor with
    | none =>
      rw [processCorrectionsAux_cons_none hpos] at hc
      exact ih cursor hcur c hc
    | some pos =>
      rw [processCorrectionsAux_cons_some hpos] at hc
      obtain ⟨h1, h2, h3, h4, _⟩ := findSubstringPosition_some hcur hpos
      rcases List.mem_cons.mp hc with hc | hc
      · subst hc; exact ⟨h1, h2, h3, h4⟩
      · obtain ⟨g1, g2, g3, g4⟩ := ih pos.stop h3 c hc
        exact ⟨by omega, g2, g3, g4⟩

/-- The loop emits at most one correction per raw suggestion. -/
theorem processCorrectionsAux_length (text : List Char) :
    ∀ (raw : List RawSuggestion) (cursor : Nat),
      (processCorrectionsAux text raw cursor).length ≤ raw.length := by
  intro raw
  induction raw with
  | nil => intro cursor; rw [processCorrectionsAux_nil]; exact Nat.le_refl 0
  | cons s rest ih =>
    intro cursor
    cases hpos : findSubstringPosition text s.oldText cursor with
    | none =>
      rw [processCorrectionsAux_cons_none hpos]
      exact Nat.le_succ_of_le (ih cursor)
    | some pos =>
      rw [processCorrectionsAux_cons_some hpos]
      exact Nat.succ_le_succ (ih pos.stop)

/-- Cursor monotonicity of the loop: the produced corrections are pairwise
ordered, each one ending at or before the next one starts. -/
theorem processCorrectionsAux_pairwise (text : List Char) :
    ∀ (raw : List RawSuggestion) (cursor : Nat), cursor ≤ text.length →
      List.Pairwise (fun c1 c2 => c1.location.stop ≤ c2.location.start)
        (processCorrectionsAux text raw cursor) := by
  intro raw
  induction raw with
  | nil => intro cursor _; rw [processCorrectionsAux_nil]; exact List.Pairwise.nil
  | cons s rest ih =>
    intro cursor hcur
    cases hpos : findSubstringPosition text s.oldText cursor with
    | none => rw [processCorrectionsAux_cons_none hpos]; exact ih cursor hcur
    | some pos =>
      obtain ⟨h1, h2, h3, h4, _⟩ := findSubstringPosition_some hcur hpos
      rw [processCorrectionsAux_cons_some hpos]
      refine List.Pairwise.cons (fun c hc => ?_) (ih pos.stop h3)
      exact (processCorrectionsAux_invariant text rest pos.stop h3 c hc).1

/-- Every produced correction copies the texts of one of the raw suggestions
and carries its explanation filtered through JS truthiness. -/
theorem processCorrectionsAux_from_suggestion (text : List Char) :
    ∀ (raw : List RawSuggestion) (cursor : Nat),
      ∀ c ∈ processCorrectionsAux text raw cursor,
        ∃ s ∈ raw, c.oldText = s.oldText ∧ c.newText = s.newText ∧
          c.explanation = carriedExplanation s.explanation := by
  intro raw
  induction raw with
  | nil => intro cursor c hc; rw [processCorrectionsAux_nil] at hc; cases hc
  | cons s rest ih =>
    intro cursor c hc
    cases hpos : findSubstringPosition text s.oldText cursor with
    | none =>
      rw [processCorrectionsAux_cons_none hpos] at hc
      obtain ⟨t, ht, h⟩ := ih cursor c hc
      exact ⟨t, List.mem_cons_of_mem s ht, h⟩
    | some pos =>
      rw [processCorrectionsAux_cons_some hpos] at hc
      rcases List.mem_cons.mp hc with hc | hc
      · subst hc; exact ⟨s, List.mem_cons_self s rest, rfl, rfl, rfl⟩
      · obtain ⟨t, ht, h⟩ := ih pos.stop c hc
        exact ⟨t, List.mem_cons_of_mem s ht, h⟩

theorem validChainB_cons {text : List Char} {p : Nat} {c : Correction}
    {rest : List Correction} (h : validChainB text p (c :: rest) = true) :
    p ≤ c.location.start ∧ c.location.start < c.location.stop ∧
    c.location.stop ≤ text.length ∧ validChainB text c.location.stop rest = true := by
  simp only [validChainB, Bool.and_eq_true, decide_eq_true_eq] at h
  exact ⟨h.1.1.1, h.1.1.2, h.1.2, h.2⟩

theorem validChainB_mem_lb (text : List Char) :
    ∀ (cs : List Correction) (p : Nat), validChainB text p cs = true →
      ∀ c ∈ cs, p ≤ c.location.start := by
  intro cs
  induction cs with
  | nil => intro p _ c hc; cases hc
  | cons c rest ih =>
    intro p h d hd
    obtain ⟨h1, h2, _, h4⟩ := validChainB_cons h
    rcases List.mem_cons.mp hd with hd | hd
    · subst hd; exact h1
    · have := ih c.location.stop h4 d hd; omega

theorem validChainB_pairwise_lt (text : List Char) :
    ∀ (cs : List Correction) (p : Nat), validChainB text p cs = true →
      List.Pairwise (fun a b => a.location.start < b.location.start) cs := by
  intro cs
  induction cs with
  | nil => intro p _; exact List.Pairwise.nil
  | cons c rest ih =>
    intro p h
    obtain ⟨_, h2, _, h4⟩ := validChainB_cons h
    refine List.Pairwise.cons (fun d hd => ?_) (ih _ h4)
    have := validChainB_mem_lb text rest c.location.stop h4 d hd
    omega

/-- On a left-to-right valid batch the descending stable sort is exactly the
reversed batch (starts are pairwise distinct, so the sorted permutation is
unique). -/
theorem sortByStartDesc_of_chain {text : List Char} {cs : List Correction} {p : Nat}
    (h : validChainB text p cs = true) : sortByStartDesc cs = cs.reverse := by
  have hasc := validChainB_pairwise_lt text cs p h
  haveI : IsAntisymm Correction (fun a b => b.location.start < a.location.start) :=
    ⟨fun a b h1 h2 => absurd (Nat.lt_trans h1 h2) (Nat.lt_irrefl _)⟩
  haveI : IsTotal Correction (fun a b => b.location.start ≤ a.location.start) :=
    ⟨fun a b => (Nat.le_total b.location.start a.location.start).imp id id⟩
  haveI : IsTrans Correction (fun a b => b.location.start ≤ a.location.start) :=
    ⟨fun _ _ _ h1 h2 => Nat.le_trans h2 h1⟩
  have hperm : List.Perm (sortByStartDesc cs) cs.reverse :=
    (List.perm_insertionSort _ cs).trans (List.reverse_perm cs).symm
  have hle : List.Pairwise (fun a b => b.location.start ≤ a.location.start)
      (sortByStartDesc cs) :=
    List.sorted_insertionSort _ cs
  have hne : List.Pairwise (fun a b : Correction => a.location.start ≠ b.location.start)
      (sortByStartDesc cs) := by
    refine ((List.perm_insertionSort _ cs).pairwise_iff (fun hxy => hxy.symm)).mpr ?_
    exact hasc.imp Nat.ne_of_lt
  have hs1 : List.Pairwise (fun a b => b.location.start < a.location.start)
      (sortByStartDesc cs) :=
    (hle.and hne).imp (fun hab => Nat.lt_of_le_of_ne hab.1 (fun e => hab.2 e.symm))
  have hs2 : List.Pairwise (fun a b => b.location.start < a.location.start)
      cs.reverse :=
    List.pairwise_reverse.mpr hasc
  exact List.eq_of_perm_of_sorted hperm hs1 hs2

/-- Splicing a valid batch from its right end inward replaces every span of
the original text by its `newText`, exactly as `spliceAllSpec` states. -/
theorem foldr_splice_of_chain (text : List Char) :
    ∀ (cs : List Correction) (p : Nat), p ≤ text.length →
      validChainB text p cs = true →
      cs.foldr (fun c acc => splice acc c.location.start c.location.stop c.newText)
          text
        = text.take p ++ spliceAllSpec text p cs := by
  intro cs
  induction cs with
  | nil => intro p hp _; simp [spliceAllSpec]
  | cons c rest ih =>
    intro p hp h
    obtain ⟨h1, h2, h3, h4⟩ := validChainB_cons h
    have hrest := ih c.location.stop h3 h4
    rw [List.foldr_cons, hrest]
    have hlen_take : (text.take c.location.stop).length = c.location.stop := by
      rw [List.length_take]; omega
    have htake :
        ((text.take c.location.stop ++ spliceAllSpec text c.location.stop rest).take
          c.location.start) = text.take c.location.start := by
      rw [List.take_append_of_le_length (by omega), List.take_take,
        Nat.min_eq_left (by omega)]
    have hdrop :
        ((text.take c.location.stop ++ spliceAllSpec text c.location.stop rest).drop
          c.location.stop) = spliceAllSpec text c.location.stop rest :=
      List.drop_left' hlen_take
    have hglue : text.take p ++ (text.take c.location.start).drop p
        = text.take c.location.start := by
      have h5 : (text.take c.location.start).take p = text.take p := by
        rw [List.take_take, Nat.min_eq_left h1]
      rw [← h5, List.take_append_drop]
    show (text.take c.location.stop ++ spliceAllSpec text c.location.stop rest).take
          c.location.start ++ c.newText ++
        (text.take c.location.stop ++ spliceAllSpec text c.location.stop rest).drop
          c.location.stop
      = text.take p ++ spliceAllSpec text p (c :: rest)
    rw [htake, hdrop, spliceAllSpec]
    nth_rewrite 1 [← hglue]
    simp [List.append_assoc]

theorem firstIdxOf_some {c : Char} :
    ∀ {l : List Char} {i : Nat}, firstIdxOf c l = some i → l[i]? = some c := by
  intro l
  induction l with
  | nil => intro i h; exact absurd h (by simp [firstIdxOf])
  | cons ch rest ih =>
    intro i h
    by_cases hch : ch = c
    · rw [firstIdxOf, if_pos hch] at h
      obtain rfl : (0 : Nat) = i := Option.some.inj h
      rw [List.getElem?_cons_zero, hch]
    · rw [firstIdxOf, if_neg hch] at h
      cases hr : firstIdxOf c rest with
      | none => rw [hr] at h; exact absurd h (by simp)
      | some k =>
        rw [hr] at h
        obtain rfl : k + 1 = i := Option.some.inj h
        rw [List.getElem?_cons_succ]
        exact ih hr

theorem lastIdxOf_some {c : Char} :
    ∀ {l : List Char} {j : Nat}, lastIdxOf c l = some j →
      l[j]? = some c ∧ j < l.length := by
  intro l
  induction l with
  | nil => intro j h; exact absurd h (by simp [lastIdxOf])
  | cons ch rest ih =>
    intro j h
    rw [lastIdxOf] at h
    cases hr : lastIdxOf c rest with
    | some k =>
      rw [hr] at h
      obtain rfl : k + 1 = j := Option.some.inj h
      obtain ⟨hg, hk⟩ := ih hr
      exact ⟨by rw [List.getElem?_cons_succ]; exact hg, by simp; omega⟩
    | none =>
      rw [hr] at h
      by_cases hch : ch = c
      · rw [if_pos hch] at h
        obtain rfl : (0 : Nat) = j := Option.some.inj h
        exact ⟨by rw [List.getElem?_cons_zero, hch], by simp⟩
      · rw [if_neg hch] at h; exact absurd h (by simp)

theorem firstIdxOf_of_head {c : Char} {l : List Char} (h : l[0]? = some c) :
    firstIdxOf c l = some 0 := by
  cases l with
  | nil => exact absurd h (by simp)
  | cons ch rest =>
    rw [List.getElem?_cons_zero] at h
    rw [firstIdxOf, if_pos (Option.some.inj h)]

theorem lastIdxOf_of_last {c : Char} :
    ∀ {l : List Char}, l ≠ [] → l[l.length - 1]? = some c →
      lastIdxOf c l = some (l.length - 1) := by
  intro l
  induction l with
  | nil => intro h _; exact absurd rfl h
  | cons ch rest ih =>
    intro _ h
    by_cases hne : rest = []
    · subst hne
      simp only [List.length_cons, List.length_nil, Nat.zero_add, Nat.sub_self,
        List.getElem?_cons_zero] at h
      simp [lastIdxOf, Option.some.inj h]
    · have hlen : rest.length ≥ 1 := List.length_pos.mpr hne
      have hidx : (ch :: rest).length - 1 = (rest.length - 1) + 1 := by
        simp only [List.length_cons]; omega
      rw [hidx, List.getElem?_cons_succ] at h
      have hr := ih hne h
      rw [lastIdxOf, hr]
      show some ((rest.length - 1) + 1) = some ((ch :: rest).length - 1)
      rw [hidx]

/-- When no opening bracket is followed (strictly later) by a closing bracket,
the regex of line 115 has no match. -/
theorem extractJsonRegion_none {t : List Char}
    (h : ∀ i j : Nat, i < j → ¬(t[i]? = some '[' ∧ t[j]? = some ']')) :
    extractJsonRegion t = none := by
  rw [extractJsonRegion]
  cases h1 : firstIdxOf '[' t with
  | none => rfl
  | some i =>
    cases h2 : lastIdxOf ']' t with
    | none => rfl
    | some j =>
      by_cases hij : i < j
      · exact absurd ⟨firstIdxOf_some h1, (lastIdxOf_some h2).1⟩ (h i j hij)
      · show (if i < j then some ((t.drop i).take (j - i + 1)) else none) = none
        rw [if_neg hij]

/-- The extracted region is itself a fixed point of the extraction: it starts
with the first `[` of the text and ends with the last `]`. -/
theorem extractJsonRegion_idem {t region : List Char}
    (h : extractJsonRegion t = some region) :
    extractJsonRegion region = some region := by
  rw [extractJsonRegion] at h
  cases h1 : firstIdxOf '[' t with
  | none => rw [h1] at h; exact absurd h (by simp)
  | some i =>
    cases h2 : lastIdxOf ']' t with
    | none => rw [h1, h2] at h; exact absurd h (by simp)
    | some j =>
      rw [h1, h2] at h
      replace h : (if i < j then some ((t.drop i).take (j - i + 1)) else none)
          = some region := h
      by_cases hij : i < j
      · rw [if_pos hij] at h
        obtain rfl : (t.drop i).take (j - i + 1) = region := Option.some.inj h
        have hi := firstIdxOf_some h1
        obtain ⟨hj, hjlen⟩ := lastIdxOf_some h2
        have hlen : ((t.drop i).take (j - i + 1)).length = j - i + 1 := by
          rw [List.length_take, List.length_drop]; omega
        have hfirst : ((t.drop i).take (j - i + 1))[0]? = some '[' := by
          rw [List.getElem?_take_of_lt (by omega), List.getElem?_drop,
            Nat.add_zero]
          exact hi
        have hlast :
            ((t.drop i).take (j - i + 1))[((t.drop i).take (j - i + 1)).length - 1]?
              = some ']' := by
          rw [hlen, List.getElem?_take_of_lt (by omega), List.getElem?_drop]
          have : i + (j - i + 1 - 1) = j := by omega
          rw [this]
          exact hj
        have hne : (t.drop i).take (j - i + 1) ≠ [] := by
          intro hx
          rw [hx] at hlen
          simp at hlen
        rw [extractJsonRegion, firstIdxOf_of_head hfirst, lastIdxOf_of_last hne hlast,
          hlen]
        show (if 0 < j - i + 1 - 1 then
            some ((((t.drop i).take (j - i + 1)).drop 0).take (j - i + 1 - 1 - 0 + 1))
          else none) = some ((t.drop i).take (j - i + 1))
        rw [if_pos (show 0 < j - i + 1 - 1 by omega), List.drop_zero]
        have harith : j - i + 1 - 1 - 0 + 1 = j - i + 1 := by omega
        rw [harith, List.take_of_length_le (by rw [hlen])]
      · rw [if_neg hij] at h; exact absurd h (by simp)

theorem jsSubstring_eq_of_le {text : List Char} {a b : Nat}
    (hab : a ≤ b) (hb : b ≤ text.length) :
    jsSubstring text a b = (text.drop a).take (b - a) := by
  simp only [jsSubstring]
  rw [Nat.min_eq_left (by omega), Nat.min_eq_left hb, Nat.min_eq_left hab,
    Nat.max_eq_right hab]

example : findSubstringPosition ("She dont like apples".toList) ("dont".toList) 0
    = some ⟨4, 8⟩ := by decide

example : findSubstringPosition ("Hello world".toList) ("hello".toList) 0 = none := by
  decide

example : findSubstringPosition ("Hello world hello".toList) ("hello".toList) 0
    = some ⟨12, 17⟩ := by decide

example : findSubstringPosition ("Hello world".toList) [] 0 = some ⟨0, 0⟩ := by decide

example :
    processCorrections ("She dont like apples".toList)
      [⟨"dont".toList, "doesn't".toList, none⟩]
    = [⟨⟨4, 8⟩, "dont".toList, "doesn't".toList, none⟩] := by decide

example :
    applyCorrections ("He go to school and she dont care".toList)
      [⟨⟨3, 5⟩, "go".toList, "goes".toList, none⟩,
       ⟨⟨24, 28⟩, "dont".toList, "doesn't".toList, none⟩]
    = ("He goes to school and she doesn't care".toList) := by decide

/-- C1: every Correction in the batch returned by the reconciler
(`processCorrections`) satisfies the Correction invariant against the original
text — `text.substring(c.location.start, c.location.end) = c.oldText` — and
the returned batch is never longer than the input suggestion sequence. -/
theorem reconciler_invariant (text : List Char) (raw : List RawSuggestion) :
    (∀ c ∈ processCorrections text raw,
       jsSubstring text c.location.start c.location.stop = c.oldText) ∧
    (processCorrections text raw).length ≤ raw.length := by
  constructor
  · intro c hc
    obtain ⟨h1, h2, h3, h4⟩ :=
      processCorrectionsAux_invariant text raw 0 (Nat.zero_le _) c hc
    rw [occursAtB_true_iff] at h4
    rw [jsSubstring_eq_of_le (by omega) h3]
    have hd : c.location.stop - c.location.start = c.oldText.length := by omega
    rw [hd]
    exact h4
  · exact processCorrectionsAux_length text raw 0

/-- Witness for C1 at E2E scenario A: text `She dont like apples`, one
suggestion for `dont`; the produced correction's span reads back its
`oldText`, and the batch has at most one element. -/
theorem reconciler_invariant_witness :
    jsSubstring ("She dont like apples".toList) 4 8 = "dont".toList ∧
    (processCorrections ("She dont like apples".toList)
        [⟨"dont".toList, "doesn't".toList, none⟩]).length ≤ 1 :=
  ⟨(reconciler_invariant ("She dont like apples".toList)
        [⟨"dont".toList, "doesn't".toList, none⟩]).1
      ⟨⟨4, 8⟩, "dont".toList, "doesn't".toList, none⟩ (by decide),
   (reconciler_invariant ("She dont like apples".toList)
        [⟨"dont".toList, "doesn't".toList, none⟩]).2⟩

/-- C2: cursor monotonicity — whenever correction `c1` appears before `c2` in
the batch returned by the reconciler (`processCorrections`),
`c1.location.end ≤ c2.location.start`: the search cursor only advances. -/
theorem reconciler_cursor_monotone (text : List Char) (raw : List RawSuggestion) :
    List.Pairwise (fun c1 c2 => c1.location.stop ≤ c2.location.start)
      (processCorrections text raw) :=
  processCorrectionsAux_pairwise text raw 0 (Nat.zero_le _)

/-- C3: batch-splice correctness of the applicator — `applyCorrections` (which
sorts a copy of the batch by descending `start` and splices in that order)
equals the simultaneous replacement of every span by its `newText`
(`spliceAllSpec`) on any non-overlapping batch valid against the text, in
particular on any batch satisfying cursor monotonicity. -/
theorem applyCorrections_correct (text : List Char) (cs : List Correction)
    (h : validChainB text 0 cs = true) :
    applyCorrections text cs = spliceAllSpec text 0 cs := by
  cases cs with
  | nil => rfl
  | cons c rest =>
    rw [applyCorrections, if_neg (by simp)]
    rw [sortByStartDesc_of_chain h, List.foldl_reverse]
    have := foldr_splice_of_chain text (c :: rest) 0 (Nat.zero_le _) h
    simpa using this

/-- Witness for C3 at E2E scenario B: `He go to school and she dont care` with
`go → goes` at `[3, 5)` and `dont → doesn't` at `[24, 28)` yields
`He goes to school and she doesn't care`. -/
theorem applyCorrections_correct_witness :
    validChainB ("He go to school and she dont care".toList) 0
        [⟨⟨3, 5⟩, "go".toList, "goes".toList, none⟩,
         ⟨⟨24, 28⟩, "dont".toList, "doesn't".toList, none⟩] = true ∧
    applyCorrections ("He go to school and she dont care".toList)
        [⟨⟨3, 5⟩, "go".toList, "goes".toList, none⟩,
         ⟨⟨24, 28⟩, "dont".toList, "doesn't".toList, none⟩]
      = spliceAllSpec ("He go to school and she dont care".toList) 0
        [⟨⟨3, 5⟩, "go".toList, "goes".toList, none⟩,
         ⟨⟨24, 28⟩, "dont".toList, "doesn't".toList, none⟩] ∧
    applyCorrections ("He go to school and she dont care".toList)
        [⟨⟨3, 5⟩, "go".toList, "goes".toList, none⟩,
         ⟨⟨24, 28⟩, "dont".toList, "doesn't".toList, none⟩]
      = ("He goes to school and she doesn't care".toList) :=
  ⟨by decide,
   applyCorrections_correct ("He go to school and she dont care".toList)
     [⟨⟨3, 5⟩, "go".toList, "goes".toList, none⟩,
      ⟨⟨24, 28⟩, "dont".toList, "doesn't".toList, none⟩] (by decide),
   by decide⟩

/-- C4: the JSON-array extraction step of `parseOllamaResponse` — when no
opening bracket is followed by a closing bracket there is no region and the
suggestion list is empty; the result depends only on the extracted first
`[...]` region (parsing the whole response equals parsing just the region);
a parse failure or a non-array parse result also yield the empty list; and
the non-JSON prose of E2E scenario D yields the empty list, never an error. -/
theorem parseOllamaResponse_extraction (jsonParse : List Char → Option Json)
    (t : List Char) :
    ((∀ i j : Nat, i < j → ¬(t[i]? = some '[' ∧ t[j]? = some ']')) →
       parseOllamaResponse jsonParse t = []) ∧
    (∀ region, extractJsonRegion t = some region →
       parseOllamaResponse jsonParse t = parseOllamaResponse jsonParse region) ∧
    (∀ region, extractJsonRegion t = some region → jsonParse region = none →
       parseOllamaResponse jsonParse t = []) ∧
    (∀ region v, extractJsonRegion t = some region → jsonParse region = some v →
       (∀ items, v ≠ Json.arr items) → parseOllamaResponse jsonParse t = []) ∧
    parseOllamaResponse jsonParse ("I found no errors.".toList) = [] := by
  refine ⟨?_, ?_, ?_, ?_, ?_⟩
  · intro h
    simp only [parseOllamaResponse, extractJsonRegion_none h]
  · intro region hr
    simp only [parseOllamaResponse, hr, extractJsonRegion_idem hr]
  · intro region hr hp
    simp only [parseOllamaResponse, hr, hp]
  · intro region v hr hp hv
    simp only [parseOllamaResponse, hr, hp]
  · have hnone : extractJsonRegion ("I found no errors.".toList) = none := by decide
    simp only [parseOllamaResponse, hnone]

/-- Witness for C4: a response whose bracketed region fails to parse
(`jsonParse` returns `none`) collapses to the empty suggestion list. -/
theorem parseOllamaResponse_extraction_witness :
    parseOllamaResponse (fun _ => none) ("x[1]y".toList) = [] :=
  (parseOllamaResponse_extraction (fun _ => none) ("x[1]y".toList)).2.2.1
    ("[1]".toList) (by decide) rfl

/-- C5: Position Resolver contract of `findSubstringPosition` — for every
`fromIndex` within the text it returns the first exact (case-sensitive,
literal) match at or after `fromIndex`, as `{start, end}` with
`end = start + length(substring)`; no match yields `none`, not an exception;
and an empty substring always resolves at `{fromIndex, fromIndex}`. -/
theorem findSubstringPosition_contract (text sub : List Char) (i : Nat)
    (hi : i ≤ text.length) :
    (∀ sp, findSubstringPosition text sub i = some sp →
       sp.stop = sp.start + sub.length ∧ i ≤ sp.start ∧
       occursAtB text sub sp.start = true ∧
       ∀ x, i ≤ x → x < sp.start → occursAtB text sub x = false) ∧
    (findSubstringPosition text sub i = none →
       ∀ x, i ≤ x → occursAtB text sub x = false) ∧
    (sub = [] → findSubstringPosition text sub i = some ⟨i, i⟩) := by
  refine ⟨fun sp hsp => ?_, fun hn => findSubstringPosition_none hi hn,
    fun hs => ?_⟩
  · obtain ⟨h1, h2, _, h4, h5⟩ := findSubstringPosition_some hi hsp
    exact ⟨h2, h1, h4, h5⟩
  · subst hs; exact findSubstringPosition_empty hi

/-- Witness for C5, including the concrete P5/P6 resolver examples:
the empty substring resolves at `{0, 0}`, `hello` is not found in
`Hello world` (case sensitivity), and is found at `{12, 17}` in
`Hello world hello`. -/
theorem findSubstringPosition_contract_witness :
    (0 ≤ ("Hello world".toList).length) ∧
    findSubstringPosition ("Hello world".toList) [] 0 = some ⟨0, 0⟩ ∧
    findSubstringPosition ("Hello world".toList) ("hello".toList) 0 = none ∧
    findSubstringPosition ("Hello world hello".toList) ("hello".toList) 0
      = some ⟨12, 17⟩ :=
  ⟨Nat.zero_le _,
   (findSubstringPosition_contract ("Hello world".toList) [] 0
       (Nat.zero_le _)).2.2 rfl,
   by decide, by decide⟩

/-- C6: identity of the applicator on the empty batch — for every text,
`applyCorrections text []` returns the text unchanged. -/
theorem applyCorrections_nil (text : List Char) : applyCorrections text [] = text :=
  rfl

/-- C7: graceful degradation — a raw suggestion whose `oldText` cannot be
located from the current cursor is silently skipped by the reconciler loop
(no error, the remaining suggestions are still processed), and reconciling a
text against the single suggestion `zzz_not_present → x`, when that `oldText`
occurs nowhere in the text, returns the empty batch. -/
theorem reconciler_graceful_degradation (text : List Char) :
    (∀ (s : RawSuggestion) (rest : List RawSuggestion) (cursor : Nat),
       findSubstringPosition text s.oldText cursor = none →
       processCorrectionsAux text (s :: rest) cursor
         = processCorrectionsAux text rest cursor) ∧
    ((∀ i, i ≤ text.length →
        occursAtB text ("zzz_not_present".toList) i = false) →
       processCorrections text
         [⟨"zzz_not_present".toList, "x".toList, none⟩] = []) := by
  constructor
  · intro s rest cursor hpos
    exact processCorrectionsAux_cons_none hpos
  · intro h
    have hnone : findSubstringPosition text ("zzz_not_present".toList) 0 = none := by
      cases hidx : jsIndexOf text ("zzz_not_present".toList) 0 with
      | none => simp only [findSubstringPosition, hidx]
      | some s =>
        obtain ⟨_, hs2, hs3, _⟩ := jsIndexOf_some (Nat.zero_le _) hidx
        exact absurd hs3 (by rw [h s hs2]; simp)
    rw [processCorrections, processCorrectionsAux_cons_none hnone,
      processCorrectionsAux_nil]

/-- Witness for C7: `zzz_not_present` occurs nowhere in `hello world`, and
reconciling that text against the single hallucinated suggestion returns the
empty batch. -/
theorem reconciler_graceful_degradation_witness :
    processCorrections ("hello world".toList)
      [⟨"zzz_not_present".toList, "x".toList, none⟩] = [] :=
  (reconciler_graceful_degradation ("hello world".toList)).2 (by decide)

/-- C8: `fixGrammar` raises an error if and only if the primary text is empty
or not a string (the `InvalidInput` case) or the upstream LLM call itself
fails; and for every empty or non-string input it fails with `InvalidInput`
for every possible LLM collaborator — i.e. before contacting the LLM. -/
theorem fixGrammar_error_characterization
    (llm : List Char → Except (List Char) (List Char))
    (jsonParse : List Char → Option Json) (t : Option JsPrim) :
    (invalidTextInput t = true →
       fixGrammar llm jsonParse t = Except.error GrammarError.invalidInput) ∧
    ((∃ e, fixGrammar llm jsonParse t = Except.error e) ↔
       (invalidTextInput t = true ∨
        ∃ s msg, t = some (JsPrim.str s) ∧ llm s = Except.error msg)) := by
  constructor
  · intro hbad
    cases t with
    | none => rfl
    | some p =>
      cases p with
      | num n => rfl
      | boolV b => rfl
      | str s =>
        have hs : s.isEmpty = true := by
          simpa [invalidTextInput] using hbad
        simp [fixGrammar, hs]
  · cases t with
    | none => simp [fixGrammar, invalidTextInput]
    | some p =>
      cases p with
      | num n => simp [fixGrammar, invalidTextInput]
      | boolV b => simp [fixGrammar, invalidTextInput]
      | str s =>
        by_cases hs : s.isEmpty
        · simp [fixGrammar, invalidTextInput, hs]
        · cases hllm : llm s with
          | error msg =>
            simp [fixGrammar, analyzeTextWithOllama, invalidTextInput, hs, hllm]
          | ok r =>
            simp [fixGrammar, analyzeTextWithOllama, invalidTextInput, hs, hllm]

/-- Witness for C8: a `none` (non-string) input is rejected as
`InvalidInput`, for an LLM that would have succeeded. -/
theorem fixGrammar_error_characterization_witness :
    fixGrammar (fun s => Except.ok s) (fun _ => none) none
      = Except.error GrammarError.invalidInput :=
  (fixGrammar_error_characterization (fun s => Except.ok s) (fun _ => none)
    none).1 rfl

/-- Counterexample to C9 as stated: the suggestion `a → b` for the text `ab`
has an explanation field present (`some []`, the empty string), the reconciler
resolves it, yet — because the source guards with JS truthiness
(`if (correction.explanation)`) — the produced Correction does not carry the
explanation through: it has no explanation field. -/
theorem explanation_present_not_carried :
    ¬ ((processCorrections ("ab".toList)
          [⟨"a".toList, "b".toList, some []⟩]).map (fun c => c.explanation)
        = [some []]) ∧
    (processCorrections ("ab".toList)
        [⟨"a".toList, "b".toList, some []⟩]).map (fun c => c.explanation)
      = [none] := by decide

/-- C9 as amended: every Correction the reconciler produces copies the texts
of one of the raw suggestions, and carries that suggestion's explanation
filtered through JS truthiness — a present non-empty explanation is carried
through unchanged, an absent or empty one yields no explanation field. -/
theorem explanation_carried_iff_truthy (text : List Char)
    (raw : List RawSuggestion) :
    ∀ c ∈ processCorrections text raw,
      ∃ s ∈ raw, c.oldText = s.oldText ∧ c.newText = s.newText ∧
        c.explanation = carriedExplanation s.explanation :=
  processCorrectionsAux_from_suggestion text raw 0

/-- Witness for C9 (amended): a non-empty explanation `e` on the suggestion
`a → b` for the text `ab` is carried through unchanged. -/
theorem explanation_carried_iff_truthy_witness :
    ∃ s ∈ [(⟨"a".toList, "b".toList, some ("e".toList)⟩ : RawSuggestion)],
      ("a".toList : List Char) = s.oldText ∧
      ("b".toList : List Char) = s.newText ∧
      (some ("e".toList) : Option (List Char)) = carriedExplanation s.explanation :=
  explanation_carried_iff_truthy ("ab".toList)
    [⟨"a".toList, "b".toList, some ("e".toList)⟩]
    ⟨⟨0, 1⟩, "a".toList, "b".toList, some ("e".toList)⟩ (by decide)

/-- C10: the exported validator `isValidCorrection` checks only field
existence and primitive types: it returns `true` for every object whose
`location` has numeric `start` and `end` and whose `oldText` and `newText`
are strings — including when `start > end`, `start` is negative, or the span
lies outside the bounds of any text. -/
theorem isValidCorrection_type_checks_only (s e : Int) (o n : List Char) :
    isValidCorrection (some
      { location := some { start := some (JsPrim.num s), stop := some (JsPrim.num e) }
        oldText := some (JsPrim.str o)
        newText := some (JsPrim.str n) }) = true :=
  rfl

end GrammarFixer
